import Mathlib

/-!
Shallow embedding of the release-automation script of the `dev-essentials-pack`
repository (`scripts/release.js` together with its helpers in `scripts/utils.js`).

JavaScript strings are modelled as Lean `String` / `List Char`; the handful of
string primitives the script uses (`split` on a one-character separator, `trim`,
`startsWith`, `endsWith`, `includes`, `Array.prototype.sort`, `Array.prototype.join`,
template concatenation and the two regex replaces) are modelled by executable
functions below.  File-system and git side effects are modelled by explicit
inputs (the answers git would give) and outputs (the message produced, the git
commands issued in order, the written manifest as an `Option`).
-/

/-- Model of JavaScript `String.prototype.split(sep)` for a one-character
separator: splits at every occurrence, keeping empty pieces, so that
`split sep s` always has one piece more than the number of separators. -/
def splitOnChar (sep : Char) : List Char → List (List Char)
  | [] => [[]]
  | c :: rest =>
    match splitOnChar sep rest with
    | [] => [[c]]
    | h :: t => if c = sep then [] :: h :: t else (c :: h) :: t

/-- Model of JavaScript `String.prototype.trim()`: removes leading and trailing
whitespace.  (The script only ever trims ASCII blanks and newlines.) -/
def jsTrim (l : List Char) : List Char :=
  ((l.dropWhile Char.isWhitespace).reverse.dropWhile Char.isWhitespace).reverse

/-- `trim` on packaged strings. -/
def jsTrimString (s : String) : String :=
  ⟨jsTrim s.data⟩

/-- Left fold turning a run of decimal digits into the number they denote. -/
def digitsToNat (l : List Char) : Nat :=
  l.foldl (fun acc ch => acc * 10 + (ch.toNat - '0'.toNat)) 0

/-- Model of JavaScript `Number(string)` on the strings the script feeds it
(components of a `major.minor.patch` version).  `none` stands for `NaN`.
JavaScript coerces a whitespace-only string to `0` and any non-numeric string
to `NaN`; fractional, signed, and exotic numeric syntaxes never occur here and
are mapped to `NaN` as well. -/
def jsToNumber (l : List Char) : Option Nat :=
  let t := jsTrim l
  if t.isEmpty then some 0
  else if t.all Char.isDigit then some (digitsToNat t) else none

/-- Rendering of a JavaScript number (or `NaN`) inside a template literal. -/
def jsNumberToString : Option Nat → String
  | none => "NaN"
  | some n => toString n

/-- Sequential string accumulation (`message += chunk` in a loop). -/
def joinStrings : List String → String
  | [] => ""
  | s :: rest => s ++ joinStrings rest

/-- Model of JavaScript `Array.prototype.join(sep)`. -/
def joinWith (sep : String) : List String → String
  | [] => ""
  | [s] => s
  | s :: rest => s ++ sep ++ joinWith sep rest

/-- Model of the regex replace `message.replace(/"/g, '\\"')`. -/
def escapeQuotes (s : String) : String :=
  ⟨s.data.flatMap (fun ch => if ch = '"' then ['\\', '"'] else [ch])⟩

/-- Model of JavaScript `String.prototype.includes(sub)` (substring test). -/
def jsIncludes (s sub : String) : Bool :=
  decide (sub.data <:+: s.data)

/-- Model of JavaScript `String.prototype.endsWith(suffix)`. -/
def jsEndsWith (s suffix : String) : Bool :=
  suffix.data.isSuffixOf s.data

/-- Model of JavaScript `Array.prototype.sort()` on string arrays: stable sort
in lexicographic string order. -/
def sortStrings (l : List String) : List String :=
  l.mergeSort (fun a b => a ≤ b)

/-! ## `scripts/utils.js` -/

/-- `colorize(color, text)` from `scripts/utils.js`: wraps `text` in the ANSI
color escape for the given color name.  The source throws on an unknown color
name, modelled by `none`. -/
def colorize (color text : String) : Option String :=
  if color = "red" then some ("\x1b[31m" ++ text ++ "\x1b[0m")
  else if color = "green" then some ("\x1b[32m" ++ text ++ "\x1b[0m")
  else if color = "yellow" then some ("\x1b[33m" ++ text ++ "\x1b[0m")
  else if color = "blue" then some ("\x1b[34m" ++ text ++ "\x1b[0m")
  else if color = "magenta" then some ("\x1b[35m" ++ text ++ "\x1b[0m")
  else if color = "cyan" then some ("\x1b[36m" ++ text ++ "\x1b[0m")
  else if color = "white" then some ("\x1b[37m" ++ text ++ "\x1b[0m")
  else none

/-- Scanner for the regex `/\x1b\[\d+m|\x1b\[0m/g` of `removeANSI`: at each
position, a match is an escape character, `[`, a non-empty run of digits, and
`m`; on a match the scanner drops it and resumes after it, otherwise it keeps
one character and moves on (the second regex alternative is subsumed by the
first). -/
def removeANSIAux (l : List Char) : List Char :=
  match l with
  | [] => []
  | c :: rest =>
    if c = '\x1b' ∧ rest.head? = some '[' then
      let digits := rest.tail.takeWhile Char.isDigit
      let after := rest.tail.dropWhile Char.isDigit
      if digits ≠ [] ∧ after.head? = some 'm' then removeANSIAux after.tail
      else c :: removeANSIAux rest
    else c :: removeANSIAux rest
  termination_by l.length
  decreasing_by
    · calc ((rest.tail.dropWhile Char.isDigit).tail).length
          ≤ (rest.tail.dropWhile Char.isDigit).length := by
            cases rest.tail.dropWhile Char.isDigit <;> simp
      _ ≤ rest.tail.length := (List.dropWhile_sublist _).length_le
      _ ≤ rest.length := by cases rest <;> simp
      _ < rest.length + 1 := Nat.lt_succ_self _
    · simp
    · simp

/-- `removeANSI(text)` from `scripts/utils.js`. -/
def removeANSI (text : String) : String :=
  ⟨removeANSIAux text.data⟩

/-- Whether the regex of `removeANSI` matches at the start of `l`. -/
def ansiMatchAt (l : List Char) : Bool :=
  decide (l.head? = some '\x1b' ∧ l.tail.head? = some '[' ∧
    l.tail.tail.takeWhile Char.isDigit ≠ [] ∧
    (l.tail.tail.dropWhile Char.isDigit).head? = some 'm')

/-- Whether `l` contains an ANSI escape sequence (a match of the regex of
`removeANSI` at some position). -/
def hasANSI : List Char → Bool
  | [] => false
  | c :: rest => ansiMatchAt (c :: rest) || hasANSI rest

/-! ## `scripts/release.js` -/

/-- `mergeExtensions(currentExtensions, newExtensions)`: the elements of
`currentExtensions` also recommended, then the new recommendations, sorted. -/
def mergeExtensions (currentExtensions newExtensions : List String) : List String :=
  sortStrings
    (currentExtensions.filter (fun ext => newExtensions.contains ext) ++
      newExtensions.filter (fun ext => !currentExtensions.contains ext))

/-- The `list` built by the two loops of
`getCommitMessageByExtensionListChanges`: every current extension tagged
`|keep` or `|remove`, then every newly added extension tagged `|add`. -/
def classifyExtensions (currentExtensions updatedExtensions : List String) : List String :=
  currentExtensions.map
      (fun ext => if updatedExtensions.contains ext then ext ++ "|keep" else ext ++ "|remove") ++
    (updatedExtensions.filter (fun ext => !currentExtensions.contains ext)).map
      (fun ext => ext ++ "|add")

/-- The body of the `for (const ext of list.sort())` loop of
`getCommitMessageByExtensionListChanges`: splits a tagged entry back into name
and action (JavaScript `const [name, action] = ext.split('|')`) and renders one
colorized report line; actions other than the three known ones fall through the
`switch` and contribute nothing. -/
def renderEntry (ext : String) : String :=
  let parts := splitOnChar '|' ext.data
  let name : String := ⟨(parts[0]?).getD []⟩
  match parts[1]? with
  | some act =>
    if act = "keep".data then (colorize "white" ("  • " ++ name ++ "\n")).getD ""
    else if act = "remove".data then (colorize "red" ("  - " ++ name ++ "\n")).getD ""
    else if act = "add".data then (colorize "green" ("  + " ++ name ++ "\n")).getD ""
    else ""
  | none => ""

/-- The fixed header the commit message starts with when the extension list
changed. -/
def commitHeader : String :=
  "feat(extension): Updates to v{{version}}\n\nNew extension list:\n"

/-- `getCommitMessageByExtensionListChanges(currentExtensions, updatedExtensions)`:
empty when every tagged entry ends in `|keep`, otherwise the templated header
followed by one colorized line per sorted tagged entry. -/
def getCommitMessageByExtensionListChanges
    (currentExtensions updatedExtensions : List String) : String :=
  let list := classifyExtensions currentExtensions updatedExtensions
  if (list.filter (fun ext => !jsEndsWith ext "|keep")).length = 0 then ""
  else commitHeader ++ joinStrings ((sortStrings list).map renderEntry)

/-- `increaseVersion(version, type)`: splits at the dots, converts the first
three components with `Number`, and rebuilds the bumped version string
(`none` renders as `NaN`, as in JavaScript). -/
def increaseVersion (version type : String) : String :=
  let parts := splitOnChar '.' version.data
  let major := (parts[0]?).bind jsToNumber
  let minor := (parts[1]?).bind jsToNumber
  let patch := (parts[2]?).bind jsToNumber
  if type = "major" then jsNumberToString (major.map (· + 1)) ++ ".0.0"
  else if type = "minor" then
    jsNumberToString major ++ "." ++ jsNumberToString (minor.map (· + 1)) ++ ".0"
  else if type = "patch" then
    jsNumberToString major ++ "." ++ jsNumberToString minor ++ "." ++
      jsNumberToString (patch.map (· + 1))
  else version

/-- The version-type decision of `bumpVersion`: strip ANSI codes from the
message, split into lines, and pick `major` / `minor` / `patch` according to
the first matching trimmed line prefix. -/
def bumpVersionType (message : String) : String :=
  let lines := splitOnChar '\n' (removeANSI message).data
  if lines.any (fun l => "-".data.isPrefixOf (jsTrim l)) then "major"
  else if lines.any (fun l => "+".data.isPrefixOf (jsTrim l)) then "minor"
  else "patch"

/-- `bumpVersion(data)`: `data.updatedVersion = increaseVersion(currentVersion,
versionType)` with the version type read off `data.message`. -/
def bumpVersion (currentVersion message : String) : String :=
  increaseVersion currentVersion (bumpVersionType message)

/-- `getCommitMessageByStagedFiles(stagedFiles, title)`: a bulleted listing of
the staged files under the given title, with double quotes escaped; empty when
nothing is staged. -/
def getCommitMessageByStagedFiles (stagedFiles : List String) (title : String) : String :=
  let message :=
    if stagedFiles.length > 0 then title ++ "\n\n- " ++ joinWith "\n- " stagedFiles ++ "\n"
    else ""
  escapeQuotes message

/-- The git commands the script issues, in order. -/
inductive GitCmd where
  | add (files : List String)
  | diffNameOnlyCached
  | restoreStaged
  | commit (message : String)
  deriving DecidableEq, Repr

/-- How one of the commit helpers finishes: a normal return with its boolean
result, or `process.exit(code)`. -/
inductive RunOutcome where
  | returned (committed : Bool)
  | exited (code : Nat)
  deriving DecidableEq, Repr

/-- `addAdditionalInfoToMessage(data)`: stages the extension files, reads the
staged file list back from git (`stagedFiles` models that answer), appends an
`Extension files updated:` listing when the filtered staged list is non-empty,
and always unstages at the end.  Returns the new message and the git commands
issued. -/
def addAdditionalInfoToMessage (extensionFiles stagedFiles : List String)
    (message : String) : String × List GitCmd :=
  let hasMessage := jsTrimString message ≠ ""
  let message' :=
    if (stagedFiles.filter
          (fun f => if hasMessage then !jsIncludes f "package.json" else true)).length > 0 then
      (if hasMessage then message ++ "\n\n"
       else "feat(extension): Updates to v{{version}}\n\n") ++
        getCommitMessageByStagedFiles stagedFiles "Extension files updated:"
    else message
  (message', [GitCmd.add extensionFiles, GitCmd.diffNameOnlyCached, GitCmd.restoreStaged])

/-- `hasChangesOnExtensionList(data)`: compares the JSON serializations of the
two sorted lists; serialization of string arrays is injective, so this is
equality of the sorted lists. -/
def hasChangesOnExtensionList (currentExtensions updatedExtensions : List String) : Bool :=
  decide (sortStrings currentExtensions ≠ sortStrings updatedExtensions)

/-- Values stored in the parsed `package.json` record, as far as the script
reads or writes them: strings, string arrays, and everything else as an opaque
parsed subtree (kept abstract as its source text). -/
inductive JValue where
  | str (s : String)
  | strList (l : List String)
  | tree (source : String)
  deriving DecidableEq, Repr

/-- The parsed manifest: a JSON object as an ordered key-value record. -/
abbrev JsonObj : Type := List (String × JValue)

/-- JavaScript property assignment `obj[k] = v`: updates the value in place if
the key exists, otherwise appends the new key at the end. -/
def setKey (o : JsonObj) (k : String) (v : JValue) : JsonObj :=
  if (o.lookup k).isSome then o.map (fun kv => if kv.1 = k then (k, v) else kv)
  else o ++ [(k, v)]

/-- `updatePackageJson(data)`: sets `version` and `extensionPack` on the parsed
manifest and returns the record that is serialized back to disk. -/
def updatePackageJson (packageJson : JsonObj) (updatedVersion : String)
    (updatedExtensions : List String) : JsonObj :=
  setKey (setKey packageJson "version" (JValue.str updatedVersion))
    "extensionPack" (JValue.strList updatedExtensions)

/-- `updateExtensionPack(data)`: writes the updated manifest unless the
extension list is unchanged and the trimmed message is empty; `none` models
the `no changes needed` path that skips the write. -/
def updateExtensionPack (currentExtensions updatedExtensions : List String)
    (message : String) (packageJson : JsonObj) (updatedVersion : String) : Option JsonObj :=
  if !hasChangesOnExtensionList currentExtensions updatedExtensions ∧
      jsTrimString message = "" then none
  else some (updatePackageJson packageJson updatedVersion updatedExtensions)

/-- `commitProjectFiles(projectFiles)` on its normal path: stages the project
files, builds the message from the staged files git reports (`stagedFiles`
models that answer), and skips, aborts with exit code 0, or commits depending
on the message and the user's answer to the prompt. -/
def commitProjectFiles (projectFiles stagedFiles : List String)
    (userConfirms : Bool) : RunOutcome × List GitCmd :=
  let message := getCommitMessageByStagedFiles stagedFiles "chore: Updated project files"
  if jsTrimString message = "" then
    (RunOutcome.returned false, [GitCmd.add projectFiles, GitCmd.diffNameOnlyCached])
  else if !userConfirms then
    (RunOutcome.exited 0,
      [GitCmd.add projectFiles, GitCmd.diffNameOnlyCached, GitCmd.restoreStaged])
  else
    (RunOutcome.returned true,
      [GitCmd.add projectFiles, GitCmd.diffNameOnlyCached, GitCmd.commit message])

/-- `commitExtensionFiles(data)` on its normal path: stages everything and then
skips, aborts with exit code 0, or commits `data.message` depending on the
message and the user's answer to the prompt. -/
def commitExtensionFiles (message : String) (userConfirms : Bool) :
    RunOutcome × List GitCmd :=
  if jsTrimString message = "" then
    (RunOutcome.returned false, [GitCmd.add ["."]])
  else if !userConfirms then
    (RunOutcome.exited 0, [GitCmd.add ["."], GitCmd.restoreStaged])
  else
    (RunOutcome.returned true, [GitCmd.add ["."], GitCmd.commit message])

/-- An extension identifier as the script expects them (`publisher.name`):
free of newlines, of the `|` tag separator, and of escape characters. -/
def cleanId (s : String) : Prop :=
  '\n' ∉ s.data ∧ '|' ∉ s.data ∧ '\x1b' ∉ s.data

instance (s : String) : Decidable (cleanId s) := by
  unfold cleanId; infer_instance

/-- The uncolorized text of the report line `renderEntry` produces for a
tagged entry, without its trailing newline: two spaces, the classification
marker (`•` kept, `-` removed, `+` added), a space, and the extension name. -/
def entryLine (ext : String) : List Char :=
  let parts := splitOnChar '|' ext.data
  let name := (parts[0]?).getD []
  match parts[1]? with
  | some act =>
    if act = "keep".data then "  • ".data ++ name
    else if act = "remove".data then "  - ".data ++ name
    else if act = "add".data then "  + ".data ++ name
    else []
  | none => []

/-- A well-formed tagged entry of the classification list: a clean extension
identifier followed by one of the three tags. -/
def taggedEntry (e : String) : Prop :=
  ∃ x, cleanId x ∧ (e = x ++ "|keep" ∨ e = x ++ "|remove" ∨ e = x ++ "|add")

/-! ## Helper lemmas: splitting -/

theorem splitOnChar_ne_nil (sep : Char) (l : List Char) : splitOnChar sep l ≠ [] := by
  cases l with
  | nil => simp [splitOnChar]
  | cons c rest =>
    rw [splitOnChar]
    cases hsp : splitOnChar sep rest with
    | nil => simp
    | cons h t =>
      split
      · simp
      · split <;> simp

theorem splitOnChar_no_sep (sep : Char) (l : List Char) (h : sep ∉ l) :
    splitOnChar sep l = [l] := by
  induction l with
  | nil => rfl
  | cons c rest ih =>
    simp only [List.mem_cons, not_or] at h
    simp only [splitOnChar, ih h.2, if_neg (Ne.symm h.1)]

theorem splitOnChar_append_sep (sep : Char) (x y : List Char) (h : sep ∉ x) :
    splitOnChar sep (x ++ sep :: y) = x :: splitOnChar sep y := by
  induction x with
  | nil =>
    simp only [List.nil_append, splitOnChar]
    rcases hy : splitOnChar sep y with _ | ⟨h, t⟩
    · exact absurd hy (splitOnChar_ne_nil sep y)
    · simp
  | cons c rest ih =>
    simp only [List.mem_cons, not_or] at h
    simp only [List.cons_append, splitOnChar, List.append_eq, ih h.2, if_neg (Ne.symm h.1)]

/-! ## Helper lemmas: trimming -/

theorem jsTrim_head (c : Char) (rest : List Char) (hc : c.isWhitespace = false) :
    ∃ t, jsTrim (c :: rest) = c :: t := by
  unfold jsTrim
  rw [List.dropWhile_cons_of_neg (by simp [hc])]
  rw [List.reverse_cons, List.dropWhile_append]
  split
  · rw [List.dropWhile_cons_of_neg (by simp [hc])]
    exact ⟨[], by simp⟩
  · exact ⟨(rest.reverse.dropWhile Char.isWhitespace).reverse, by simp⟩

theorem jsTrim_nil : jsTrim [] = [] := rfl

theorem jsTrim_ne_nil (c : Char) (rest : List Char) (hc : c.isWhitespace = false) :
    jsTrim (c :: rest) ≠ [] := by
  obtain ⟨t, ht⟩ := jsTrim_head c rest hc
  simp [ht]

/-! ## Helper lemmas: the ANSI scanner -/

theorem removeANSIAux_nil : removeANSIAux [] = [] := by
  unfold removeANSIAux; rfl

theorem removeANSIAux_cons_of_ne (c : Char) (rest : List Char) (hc : c ≠ '\x1b') :
    removeANSIAux (c :: rest) = c :: removeANSIAux rest := by
  rw [removeANSIAux]
  simp [hc]

theorem hasANSI_of_no_esc (l : List Char) (h : '\x1b' ∉ l) : hasANSI l = false := by
  induction l with
  | nil => rfl
  | cons c rest ih =>
    simp only [List.mem_cons, not_or] at h
    simp only [hasANSI, ih h.2, Bool.or_false]
    simp [ansiMatchAt, Ne.symm h.1]

theorem removeANSIAux_append_of_no_esc (l rest : List Char) (h : '\x1b' ∉ l) :
    removeANSIAux (l ++ rest) = l ++ removeANSIAux rest := by
  induction l with
  | nil => simp
  | cons c l' ih =>
    simp only [List.mem_cons, not_or] at h
    rw [List.cons_append, removeANSIAux_cons_of_ne c _ (Ne.symm h.1), ih h.2, List.cons_append]

theorem head_esc_takeWhile_digit (rest : List Char)
    (hrest : rest = [] ∨ rest.head? = some '\x1b') :
    rest.takeWhile Char.isDigit = [] ∧ rest.dropWhile Char.isDigit = rest := by
  rcases hrest with h0 | h0
  · simp [h0]
  · cases rest with
    | nil => simp
    | cons r rs =>
      simp only [List.head?_cons, Option.some.injEq] at h0
      subst h0
      constructor
      · rw [List.takeWhile_cons_of_neg (by decide)]
      · rw [List.dropWhile_cons_of_neg (by decide)]

theorem head_esc_ne_m (rest : List Char)
    (hrest : rest = [] ∨ rest.head? = some '\x1b') : rest.head? ≠ some 'm' := by
  rcases hrest with h0 | h0
  · simp [h0]
  · rw [h0]
    intro hcon
    exact absurd (Option.some.inj hcon) (by decide)

theorem match_cond_append (l'' rest : List Char)
    (hrest : rest = [] ∨ rest.head? = some '\x1b')
    (hm : ¬(l''.takeWhile Char.isDigit ≠ [] ∧
        (l''.dropWhile Char.isDigit).head? = some 'm')) :
    ¬((l'' ++ rest).takeWhile Char.isDigit ≠ [] ∧
      ((l'' ++ rest).dropWhile Char.isDigit).head? = some 'm') := by
  obtain ⟨htw, hdw⟩ := head_esc_takeWhile_digit rest hrest
  rcases hfull : l''.dropWhile Char.isDigit with _ | ⟨d, t⟩
  · have htake : l''.takeWhile Char.isDigit = l'' := by
      have := List.takeWhile_append_dropWhile (p := Char.isDigit) (l := l'')
      rw [hfull, List.append_nil] at this
      exact this
    rw [List.dropWhile_append]
    rw [if_pos (by simp [hfull])]
    rw [hdw]
    intro hcon
    exact head_esc_ne_m rest hrest hcon.2
  · have hlen : (l''.takeWhile Char.isDigit).length ≠ l''.length := by
      have := List.takeWhile_append_dropWhile (p := Char.isDigit) (l := l'')
      intro hcon
      have hlen2 := congrArg List.length this
      rw [List.length_append, hfull, hcon] at hlen2
      simp at hlen2
    rw [List.takeWhile_append, if_neg hlen, List.dropWhile_append,
      if_neg (by simp [hfull]), hfull, List.cons_append]
    rw [hfull] at hm
    simp only [List.head?_cons, Option.some.injEq] at hm ⊢
    exact hm

theorem removeANSIAux_append_aux (n : Nat) :
    ∀ (l rest : List Char), l.length ≤ n → hasANSI l = false →
      (rest = [] ∨ rest.head? = some '\x1b') →
      removeANSIAux (l ++ rest) = l ++ removeANSIAux rest := by
  induction n with
  | zero =>
    intro l rest hn _ _
    have hl : l = [] := by
      cases l with
      | nil => rfl
      | cons c t => simp at hn
    simp [hl]
  | succ n ih =>
    intro l rest hn h hrest
    match l with
    | [] => simp
    | c :: l' =>
      have hsplit : ansiMatchAt (c :: l') = false ∧ hasANSI l' = false := by
        simpa only [hasANSI, Bool.or_eq_false_iff] using h
      by_cases hc : c = '\x1b' ∧ (l' ++ rest).head? = some '['
      · obtain ⟨hc1, hc2⟩ := hc
        subst hc1
        cases l' with
        | nil =>
          exfalso
          simp only [List.nil_append] at hc2
          rcases hrest with h0 | h0
          · simp [h0] at hc2
          · rw [h0] at hc2
            exact absurd (Option.some.inj hc2) (by decide)
        | cons d l'' =>
          have hd : d = '[' := by simpa using hc2
          subst hd
          have hmatch : ¬(l''.takeWhile Char.isDigit ≠ [] ∧
              (l''.dropWhile Char.isDigit).head? = some 'm') := by
            have hm1 := hsplit.1
            simp only [ansiMatchAt, decide_eq_false_iff_not] at hm1
            intro hcon
            exact hm1 ⟨rfl, by simp, hcon.1, hcon.2⟩
          have hcond := match_cond_append l'' rest hrest hmatch
          rw [List.cons_append, List.cons_append, removeANSIAux]
          rw [if_pos ⟨rfl, by simp⟩]
          simp only [List.tail_cons]
          rw [if_neg hcond]
          have hrec := ih ('[' :: l'') rest
            (by simpa using Nat.le_of_succ_le_succ (by simpa using hn)) hsplit.2 hrest
          rw [List.cons_append] at hrec
          rw [hrec]
          rfl
      · rw [List.cons_append, removeANSIAux, if_neg hc]
        have hrec := ih l' rest (Nat.le_of_succ_le_succ (by simpa using hn)) hsplit.2 hrest
        rw [hrec, List.cons_append]

theorem removeANSIAux_append_of_no_ansi (l rest : List Char) (h : hasANSI l = false)
    (hrest : rest = [] ∨ rest.head? = some '\x1b') :
    removeANSIAux (l ++ rest) = l ++ removeANSIAux rest :=
  removeANSIAux_append_aux l.length l rest le_rfl h hrest

theorem removeANSIAux_close (rest : List Char) :
    removeANSIAux ('\x1b' :: '[' :: '0' :: 'm' :: rest) = removeANSIAux rest := by
  rw [removeANSIAux]
  rw [if_pos ⟨rfl, by simp⟩]
  simp only [List.tail_cons]
  rw [List.takeWhile_cons_of_pos (by decide), List.takeWhile_cons_of_neg (by decide),
    List.dropWhile_cons_of_pos (by decide), List.dropWhile_cons_of_neg (by decide)]
  rw [if_pos (by simp)]
  simp

theorem removeANSIAux_wrap (d : Char) (hd : d.isDigit = true) (t rest : List Char)
    (ht : hasANSI t = false) :
    removeANSIAux
        ('\x1b' :: '[' :: '3' :: d :: 'm' :: (t ++ '\x1b' :: '[' :: '0' :: 'm' :: rest)) =
      t ++ removeANSIAux rest := by
  rw [removeANSIAux]
  rw [if_pos ⟨rfl, by simp⟩]
  simp only [List.tail_cons]
  rw [List.takeWhile_cons_of_pos (by decide), List.takeWhile_cons_of_pos hd,
    List.takeWhile_cons_of_neg (by decide),
    List.dropWhile_cons_of_pos (by decide), List.dropWhile_cons_of_pos hd,
    List.dropWhile_cons_of_neg (by decide)]
  rw [if_pos (by simp)]
  simp only [List.tail_cons]
  rw [removeANSIAux_append_of_no_ansi t _ ht (Or.inr (by simp)), removeANSIAux_close]

theorem removeANSIAux_color (pre : String) (d : Char) (hd : d.isDigit = true)
    (hpre : pre.data = ['\x1b', '[', '3', d, 'm'])
    (body : String) (hbody : hasANSI body.data = false) (rest : List Char) :
    removeANSIAux ((pre ++ body ++ "\x1b[0m").data ++ rest) =
      body.data ++ removeANSIAux rest := by
  have hshape : (pre ++ body ++ "\x1b[0m").data ++ rest =
      '\x1b' :: '[' :: '3' :: d :: 'm' :: (body.data ++ '\x1b' :: '[' :: '0' :: 'm' :: rest) := by
    simp [String.data_append, hpre, List.append_assoc]
  rw [hshape, removeANSIAux_wrap d hd body.data rest hbody]

/-! ## Claim C10: stripping ANSI codes undoes colorization -/

/-- C10: for every color among red, green, yellow, blue, magenta, cyan and
white, and every string that contains no ANSI escape sequence (no match of the
regex of `removeANSI`), stripping the ANSI codes from the colorized string
gives the original string back. -/
theorem colorize_removeANSI_roundtrip (color : String)
    (hc : color ∈ ["red", "green", "yellow", "blue", "magenta", "cyan", "white"])
    (s : String) (hs : hasANSI s.data = false) :
    (colorize color s).map removeANSI = some s := by
  have key : ∀ (pre : String) (d : Char), d.isDigit = true →
      pre.data = ['\x1b', '[', '3', d, 'm'] →
      removeANSI (pre ++ s ++ "\x1b[0m") = s := by
    intro pre d hd hpre
    have h2 := removeANSIAux_color pre d hd hpre s hs []
    rw [List.append_nil, removeANSIAux_nil, List.append_nil] at h2
    exact String.ext h2
  simp only [List.mem_cons, List.not_mem_nil, or_false] at hc
  rcases hc with h | h | h | h | h | h | h
  · subst h
    rw [show colorize "red" s = some ("\x1b[31m" ++ s ++ "\x1b[0m") from rfl,
      Option.map_some']
    exact congrArg some (key _ '1' (by decide) rfl)
  · subst h
    rw [show colorize "green" s = some ("\x1b[32m" ++ s ++ "\x1b[0m") from rfl,
      Option.map_some']
    exact congrArg some (key _ '2' (by decide) rfl)
  · subst h
    rw [show colorize "yellow" s = some ("\x1b[33m" ++ s ++ "\x1b[0m") from rfl,
      Option.map_some']
    exact congrArg some (key _ '3' (by decide) rfl)
  · subst h
    rw [show colorize "blue" s = some ("\x1b[34m" ++ s ++ "\x1b[0m") from rfl,
      Option.map_some']
    exact congrArg some (key _ '4' (by decide) rfl)
  · subst h
    rw [show colorize "magenta" s = some ("\x1b[35m" ++ s ++ "\x1b[0m") from rfl,
      Option.map_some']
    exact congrArg some (key _ '5' (by decide) rfl)
  · subst h
    rw [show colorize "cyan" s = some ("\x1b[36m" ++ s ++ "\x1b[0m") from rfl,
      Option.map_some']
    exact congrArg some (key _ '6' (by decide) rfl)
  · subst h
    rw [show colorize "white" s = some ("\x1b[37m" ++ s ++ "\x1b[0m") from rfl,
      Option.map_some']
    exact congrArg some (key _ '7' (by decide) rfl)

theorem colorize_removeANSI_roundtrip_witness :
    ("red" ∈ ["red", "green", "yellow", "blue", "magenta", "cyan", "white"] ∧
      hasANSI "hello".data = false) ∧
    (colorize "red" "hello").map removeANSI = some "hello" :=
  ⟨⟨by decide, by decide⟩,
    colorize_removeANSI_roundtrip "red" (by decide) "hello" (by decide)⟩

/-! ## Helper lemmas: sorting -/

theorem sortStrings_sorted (l : List String) : (sortStrings l).Sorted (· ≤ ·) := by
  simpa [sortStrings] using List.sorted_mergeSort' (α := String) l

theorem sortStrings_perm (l : List String) : (sortStrings l).Perm l :=
  List.mergeSort_perm l _

theorem contains_iff_mem (l : List String) (a : String) : l.contains a = true ↔ a ∈ l := by
  simp [List.contains, List.elem_iff]

/-! ## Claim C1: the extension-list merger -/

/-- C1: for duplicate-free `current` and `recommended`, `mergeExtensions`
returns a lexicographically sorted list whose members are exactly
(current ∩ recommended) ∪ (recommended \ current), which therefore contains no
element of current \ recommended, and which is empty when both inputs are
empty. -/
theorem mergeExtensions_spec (current recommended : List String)
    (h1 : current.Nodup) (h2 : recommended.Nodup) :
    (mergeExtensions current recommended).Sorted (· ≤ ·) ∧
    (∀ x, x ∈ mergeExtensions current recommended ↔
      (x ∈ current ∧ x ∈ recommended) ∨ (x ∈ recommended ∧ x ∉ current)) ∧
    (∀ x, x ∈ current → x ∉ recommended → x ∉ mergeExtensions current recommended) ∧
    (current = [] → recommended = [] → mergeExtensions current recommended = []) := by
  have hmem : ∀ x, x ∈ mergeExtensions current recommended ↔
      (x ∈ current ∧ x ∈ recommended) ∨ (x ∈ recommended ∧ x ∉ current) := by
    intro x
    unfold mergeExtensions
    rw [(sortStrings_perm _).mem_iff, List.mem_append, List.mem_filter, List.mem_filter]
    simp [contains_iff_mem]
  refine ⟨sortStrings_sorted _, hmem, ?_, ?_⟩
  · intro x hxc hxr hxm
    rcases (hmem x).mp hxm with ⟨_, h⟩ | ⟨h, _⟩ <;> exact hxr h
  · intro hc hr
    subst hc; subst hr
    simp [mergeExtensions, sortStrings, List.mergeSort_nil]

theorem mergeExtensions_spec_witness :
    (["b.x", "a.y"].Nodup ∧ ["a.y", "c.z"].Nodup) ∧
    ((mergeExtensions ["b.x", "a.y"] ["a.y", "c.z"]).Sorted (· ≤ ·) ∧
      (∀ x, x ∈ mergeExtensions ["b.x", "a.y"] ["a.y", "c.z"] ↔
        (x ∈ ["b.x", "a.y"] ∧ x ∈ ["a.y", "c.z"]) ∨
          (x ∈ ["a.y", "c.z"] ∧ x ∉ ["b.x", "a.y"])) ∧
      (∀ x, x ∈ ["b.x", "a.y"] → x ∉ ["a.y", "c.z"] →
        x ∉ mergeExtensions ["b.x", "a.y"] ["a.y", "c.z"]) ∧
      (["b.x", "a.y"] = [] → ["a.y", "c.z"] = [] →
        mergeExtensions ["b.x", "a.y"] ["a.y", "c.z"] = [])) :=
  ⟨⟨by decide, by decide⟩, mergeExtensions_spec _ _ (by decide) (by decide)⟩

/-! ## Claim C9: the merge result is the sorted recommended list -/

/-- C9: for duplicate-free inputs the merged list is exactly the sorted
recommendations: the kept part of `current` contributes nothing beyond the
recommendations, so membership of the output does not depend on `current`. -/
theorem mergeExtensions_eq_sorted_recommended (current recommended : List String)
    (h1 : current.Nodup) (h2 : recommended.Nodup) :
    mergeExtensions current recommended = sortStrings recommended := by
  have hnodL : (current.filter (fun ext => recommended.contains ext) ++
      recommended.filter (fun ext => !current.contains ext)).Nodup := by
    refine (h1.filter _).append (h2.filter _) ?_
    rw [List.disjoint_left]
    intro a ha hb
    rw [List.mem_filter] at ha hb
    have : a ∈ current := ha.1
    simp [contains_iff_mem, this] at hb
  have hLB : (current.filter (fun ext => recommended.contains ext) ++
      recommended.filter (fun ext => !current.contains ext)).Perm recommended := by
    rw [List.perm_ext_iff_of_nodup hnodL h2]
    intro a
    rw [List.mem_append, List.mem_filter, List.mem_filter]
    constructor
    · rintro (⟨_, h⟩ | ⟨h, _⟩)
      · exact (contains_iff_mem _ _).mp h
      · exact h
    · intro ha
      by_cases hac : a ∈ current
      · exact Or.inl ⟨hac, (contains_iff_mem _ _).mpr ha⟩
      · exact Or.inr ⟨ha, by simp [contains_iff_mem, hac]⟩
  exact List.eq_of_perm_of_sorted
    ((sortStrings_perm _).trans (hLB.trans (sortStrings_perm recommended).symm))
    (sortStrings_sorted _) (sortStrings_sorted _)

theorem mergeExtensions_eq_sorted_recommended_witness :
    (["b.x", "a.y"].Nodup ∧ ["a.y", "c.z"].Nodup) ∧
    mergeExtensions ["b.x", "a.y"] ["a.y", "c.z"] = sortStrings ["a.y", "c.z"] :=
  ⟨⟨by decide, by decide⟩,
    mergeExtensions_eq_sorted_recommended _ _ (by decide) (by decide)⟩

/-! ## Claim C3: concrete version bumps -/

/-- C3: `increaseVersion` on "1.2.3" gives "2.0.0" for major, "1.3.0" for
minor, and "1.2.4" for patch. -/
theorem increaseVersion_examples :
    increaseVersion "1.2.3" "major" = "2.0.0" ∧
    increaseVersion "1.2.3" "minor" = "1.3.0" ∧
    increaseVersion "1.2.3" "patch" = "1.2.4" := by
  refine ⟨?_, ?_, ?_⟩ <;> decide

/-! ## Helper lemmas: tagged entries -/

theorem splitOnChar_tag (name act : List Char) (hname : '|' ∉ name) (hact : '|' ∉ act) :
    splitOnChar '|' (name ++ '|' :: act) = [name, act] := by
  rw [splitOnChar_append_sep _ _ _ hname, splitOnChar_no_sep _ _ hact]

theorem data_append_tag (x : String) (tag : String) :
    (x ++ tag).data = x.data ++ tag.data := String.data_append x tag

theorem stringMk_data (s : String) : (⟨s.data⟩ : String) = s := rfl

theorem entryLine_keep (x : String) (hx : '|' ∉ x.data) :
    entryLine (x ++ "|keep") = "  • ".data ++ x.data := by
  unfold entryLine
  rw [show (x ++ "|keep").data = x.data ++ '|' :: "keep".data from String.data_append x _]
  rw [splitOnChar_tag x.data "keep".data hx (by decide)]
  simp

theorem entryLine_remove (x : String) (hx : '|' ∉ x.data) :
    entryLine (x ++ "|remove") = "  - ".data ++ x.data := by
  unfold entryLine
  rw [show (x ++ "|remove").data = x.data ++ '|' :: "remove".data from String.data_append x _]
  rw [splitOnChar_tag x.data "remove".data hx (by decide)]
  simp

theorem entryLine_add (x : String) (hx : '|' ∉ x.data) :
    entryLine (x ++ "|add") = "  + ".data ++ x.data := by
  unfold entryLine
  rw [show (x ++ "|add").data = x.data ++ '|' :: "add".data from String.data_append x _]
  rw [splitOnChar_tag x.data "add".data hx (by decide)]
  simp

theorem renderEntry_keep (x : String) (hx : '|' ∉ x.data) :
    renderEntry (x ++ "|keep") = "\x1b[37m" ++ ("  • " ++ x ++ "\n") ++ "\x1b[0m" := by
  unfold renderEntry
  rw [show (x ++ "|keep").data = x.data ++ '|' :: "keep".data from String.data_append x _]
  rw [splitOnChar_tag x.data "keep".data hx (by decide)]
  simp only [List.getElem?_cons_zero, List.getElem?_cons_succ, Option.getD_some]
  rw [stringMk_data]
  simp [colorize]

theorem renderEntry_remove (x : String) (hx : '|' ∉ x.data) :
    renderEntry (x ++ "|remove") = "\x1b[31m" ++ ("  - " ++ x ++ "\n") ++ "\x1b[0m" := by
  unfold renderEntry
  rw [show (x ++ "|remove").data = x.data ++ '|' :: "remove".data from String.data_append x _]
  rw [splitOnChar_tag x.data "remove".data hx (by decide)]
  simp only [List.getElem?_cons_zero, List.getElem?_cons_succ, Option.getD_some]
  rw [stringMk_data]
  rw [if_neg (by decide)]
  simp [colorize]

theorem renderEntry_add (x : String) (hx : '|' ∉ x.data) :
    renderEntry (x ++ "|add") = "\x1b[32m" ++ ("  + " ++ x ++ "\n") ++ "\x1b[0m" := by
  unfold renderEntry
  rw [show (x ++ "|add").data = x.data ++ '|' :: "add".data from String.data_append x _]
  rw [splitOnChar_tag x.data "add".data hx (by decide)]
  simp only [List.getElem?_cons_zero, List.getElem?_cons_succ, Option.getD_some]
  rw [stringMk_data]
  rw [if_neg (by decide), if_neg (by decide)]
  simp [colorize]

theorem hasANSI_entry_body (pre : String) (x : String) (hpre : '\x1b' ∉ pre.data)
    (hx : '\x1b' ∉ x.data) : hasANSI (pre ++ x ++ "\n").data = false := by
  apply hasANSI_of_no_esc
  simp only [String.data_append, List.mem_append]
  rintro ((h | h) | h)
  · exact hpre h
  · exact hx h
  · revert h; decide

theorem entryLine_no_newline (e x : String) (hx : cleanId x)
    (hshape : e = x ++ "|keep" ∨ e = x ++ "|remove" ∨ e = x ++ "|add") :
    '\n' ∉ entryLine e := by
  obtain ⟨hn, hp, he⟩ := hx
  rcases hshape with rfl | rfl | rfl
  · rw [entryLine_keep x hp]
    simp only [List.mem_append, not_or]
    exact ⟨by decide, hn⟩
  · rw [entryLine_remove x hp]
    simp only [List.mem_append, not_or]
    exact ⟨by decide, hn⟩
  · rw [entryLine_add x hp]
    simp only [List.mem_append, not_or]
    exact ⟨by decide, hn⟩

theorem removeANSIAux_renderEntry (e x : String) (hx : cleanId x)
    (hshape : e = x ++ "|keep" ∨ e = x ++ "|remove" ∨ e = x ++ "|add") (rest : List Char) :
    removeANSIAux ((renderEntry e).data ++ rest) =
      (entryLine e ++ ['\n']) ++ removeANSIAux rest := by
  obtain ⟨hn, hp, hesc⟩ := hx
  rcases hshape with rfl | rfl | rfl
  · rw [renderEntry_keep x hp,
      removeANSIAux_color _ '7' (by decide) rfl _
        (hasANSI_entry_body "  • " x (by decide) hesc) rest,
      entryLine_keep x hp]
    simp [String.data_append, List.append_assoc]
  · rw [renderEntry_remove x hp,
      removeANSIAux_color _ '1' (by decide) rfl _
        (hasANSI_entry_body "  - " x (by decide) hesc) rest,
      entryLine_remove x hp]
    simp [String.data_append, List.append_assoc]
  · rw [renderEntry_add x hp,
      removeANSIAux_color _ '2' (by decide) rfl _
        (hasANSI_entry_body "  + " x (by decide) hesc) rest,
      entryLine_add x hp]
    simp [String.data_append, List.append_assoc]

theorem removeANSIAux_joinStrings (ents : List String) (h : ∀ e ∈ ents, taggedEntry e) :
    removeANSIAux ((joinStrings (ents.map renderEntry)).data) =
      (joinStrings (ents.map (fun e => (⟨entryLine e ++ ['\n']⟩ : String)))).data := by
  induction ents with
  | nil => exact removeANSIAux_nil
  | cons e rest ih =>
    obtain ⟨x, hx, hshape⟩ := h e (List.mem_cons_self e rest)
    simp only [List.map_cons, joinStrings, String.data_append]
    rw [removeANSIAux_renderEntry e x hx hshape _,
      ih (fun e' he' => h e' (List.mem_cons_of_mem e he'))]

theorem splitOnChar_joined_lines (ents : List String)
    (h : ∀ e ∈ ents, '\n' ∉ entryLine e) :
    splitOnChar '\n'
        ((joinStrings (ents.map (fun e => (⟨entryLine e ++ ['\n']⟩ : String)))).data) =
      ents.map entryLine ++ [[]] := by
  induction ents with
  | nil => simp [joinStrings, splitOnChar]
  | cons e rest ih =>
    simp only [List.map_cons, joinStrings, String.data_append]
    have hstep : entryLine e ++ ['\n'] ++
        (joinStrings (rest.map (fun e => (⟨entryLine e ++ ['\n']⟩ : String)))).data =
        entryLine e ++ '\n' ::
          (joinStrings (rest.map (fun e => (⟨entryLine e ++ ['\n']⟩ : String)))).data := by
      simp
    rw [hstep, splitOnChar_append_sep _ _ _ (h e (List.mem_cons_self e rest)),
      ih (fun e' he' => h e' (List.mem_cons_of_mem e he'))]
    simp

theorem splitOnChar_commitHeader (rest : List Char) :
    splitOnChar '\n' (commitHeader.data ++ rest) =
      "feat(extension): Updates to v{{version}}".data :: [] ::
        "New extension list:".data :: splitOnChar '\n' rest := by
  have hshape : commitHeader.data ++ rest =
      "feat(extension): Updates to v{{version}}".data ++
        '\n' :: ([] ++ '\n' :: ("New extension list:".data ++ '\n' :: rest)) := by
    have hconc : commitHeader.data =
        "feat(extension): Updates to v{{version}}".data ++
          '\n' :: '\n' :: ("New extension list:".data ++ ['\n']) := by decide
    rw [hconc]
    simp [List.append_assoc]
  rw [hshape, splitOnChar_append_sep _ _ _ (by decide),
    splitOnChar_append_sep _ _ _ (by simp),
    splitOnChar_append_sep _ _ _ (by decide)]

theorem mem_classifyExtensions (A B : List String) (e : String) :
    e ∈ classifyExtensions A B ↔
      (∃ x, x ∈ A ∧ x ∈ B ∧ e = x ++ "|keep") ∨
      (∃ x, x ∈ A ∧ x ∉ B ∧ e = x ++ "|remove") ∨
      (∃ x, x ∈ B ∧ x ∉ A ∧ e = x ++ "|add") := by
  unfold classifyExtensions
  rw [List.mem_append, List.mem_map, List.mem_map]
  constructor
  · rintro (⟨x, hx, rfl⟩ | ⟨x, hx, rfl⟩)
    · by_cases hb : x ∈ B
      · rw [if_pos ((contains_iff_mem _ _).mpr hb)]
        exact Or.inl ⟨x, hx, hb, rfl⟩
      · rw [if_neg (by simpa [contains_iff_mem] using hb)]
        exact Or.inr (Or.inl ⟨x, hx, hb, rfl⟩)
    · rw [List.mem_filter] at hx
      refine Or.inr (Or.inr ⟨x, hx.1, ?_, rfl⟩)
      have := hx.2
      simpa [contains_iff_mem] using this
  · rintro (⟨x, hxa, hxb, rfl⟩ | ⟨x, hxa, hxb, rfl⟩ | ⟨x, hxb, hxa, rfl⟩)
    · exact Or.inl ⟨x, hxa, by rw [if_pos ((contains_iff_mem _ _).mpr hxb)]⟩
    · exact Or.inl ⟨x, hxa, by rw [if_neg (by simpa [contains_iff_mem] using hxb)]⟩
    · refine Or.inr ⟨x, ?_, rfl⟩
      rw [List.mem_filter]
      exact ⟨hxb, by simpa [contains_iff_mem] using hxa⟩

theorem classify_tagged (A B : List String) (hA : ∀ x ∈ A, cleanId x)
    (hB : ∀ x ∈ B, cleanId x) : ∀ e ∈ classifyExtensions A B, taggedEntry e := by
  intro e he
  rcases (mem_classifyExtensions A B e).mp he with
    ⟨x, hxa, _, rfl⟩ | ⟨x, hxa, _, rfl⟩ | ⟨x, hxb, _, rfl⟩
  · exact ⟨x, hA x hxa, Or.inl rfl⟩
  · exact ⟨x, hA x hxa, Or.inr (Or.inl rfl)⟩
  · exact ⟨x, hB x hxb, Or.inr (Or.inr rfl)⟩

/-! ## Helper lemmas: line markers -/

theorem jsTrim_cons_space (l : List Char) : jsTrim (' ' :: l) = jsTrim l := by
  unfold jsTrim
  rw [List.dropWhile_cons_of_pos (by decide)]

theorem isPrefixOf_single_cons (c d : Char) (t : List Char) :
    [c].isPrefixOf (d :: t) = (c == d) := by
  simp [List.isPrefixOf]

theorem marker_of_keep (x : String) (hx : '|' ∉ x.data) :
    ("-".data.isPrefixOf (jsTrim (entryLine (x ++ "|keep"))) = false) ∧
    ("+".data.isPrefixOf (jsTrim (entryLine (x ++ "|keep"))) = false) := by
  rw [entryLine_keep x hx]
  rw [show "  • ".data ++ x.data = ' ' :: ' ' :: '•' :: (' ' :: x.data) from rfl]
  rw [jsTrim_cons_space, jsTrim_cons_space]
  obtain ⟨t, ht⟩ := jsTrim_head '•' (' ' :: x.data) (by decide)
  rw [ht]
  rw [show ("-".data) = ['-'] from rfl, show ("+".data) = ['+'] from rfl]
  rw [isPrefixOf_single_cons, isPrefixOf_single_cons]
  exact ⟨by decide, by decide⟩

theorem marker_of_remove (x : String) (hx : '|' ∉ x.data) :
    ("-".data.isPrefixOf (jsTrim (entryLine (x ++ "|remove"))) = true) ∧
    ("+".data.isPrefixOf (jsTrim (entryLine (x ++ "|remove"))) = false) := by
  rw [entryLine_remove x hx]
  rw [show "  - ".data ++ x.data = ' ' :: ' ' :: '-' :: (' ' :: x.data) from rfl]
  rw [jsTrim_cons_space, jsTrim_cons_space]
  obtain ⟨t, ht⟩ := jsTrim_head '-' (' ' :: x.data) (by decide)
  rw [ht]
  rw [show ("-".data) = ['-'] from rfl, show ("+".data) = ['+'] from rfl]
  rw [isPrefixOf_single_cons, isPrefixOf_single_cons]
  exact ⟨by decide, by decide⟩

theorem marker_of_add (x : String) (hx : '|' ∉ x.data) :
    ("-".data.isPrefixOf (jsTrim (entryLine (x ++ "|add"))) = false) ∧
    ("+".data.isPrefixOf (jsTrim (entryLine (x ++ "|add"))) = true) := by
  rw [entryLine_add x hx]
  rw [show "  + ".data ++ x.data = ' ' :: ' ' :: '+' :: (' ' :: x.data) from rfl]
  rw [jsTrim_cons_space, jsTrim_cons_space]
  obtain ⟨t, ht⟩ := jsTrim_head '+' (' ' :: x.data) (by decide)
  rw [ht]
  rw [show ("-".data) = ['-'] from rfl, show ("+".data) = ['+'] from rfl]
  rw [isPrefixOf_single_cons, isPrefixOf_single_cons]
  exact ⟨by decide, by decide⟩

theorem perm_any_eq (l₁ l₂ : List String) (h : l₁.Perm l₂) (p : String → Bool) :
    l₁.any p = l₂.any p := by
  rw [Bool.eq_iff_iff, List.any_eq_true, List.any_eq_true]
  constructor
  · rintro ⟨a, ha, hp⟩
    exact ⟨a, h.mem_iff.mp ha, hp⟩
  · rintro ⟨a, ha, hp⟩
    exact ⟨a, h.mem_iff.mpr ha, hp⟩

theorem classify_any_minus (A B : List String) (hA : ∀ x ∈ A, cleanId x)
    (hB : ∀ x ∈ B, cleanId x) :
    (classifyExtensions A B).any
        (fun e => "-".data.isPrefixOf (jsTrim (entryLine e))) =
      A.any (fun x => !B.contains x) := by
  rw [Bool.eq_iff_iff, List.any_eq_true, List.any_eq_true]
  constructor
  · rintro ⟨e, he, hpe⟩
    rcases (mem_classifyExtensions A B e).mp he with
      ⟨x, hxa, hxb, rfl⟩ | ⟨x, hxa, hxb, rfl⟩ | ⟨x, hxb, hxa, rfl⟩
    · rw [(marker_of_keep x (hA x hxa).2.1).1] at hpe
      exact absurd hpe (by simp)
    · exact ⟨x, hxa, by simpa [contains_iff_mem] using hxb⟩
    · rw [(marker_of_add x (hB x hxb).2.1).1] at hpe
      exact absurd hpe (by simp)
  · rintro ⟨x, hxa, hxb⟩
    have hxb' : x ∉ B := by simpa [contains_iff_mem] using hxb
    refine ⟨x ++ "|remove", ?_, (marker_of_remove x (hA x hxa).2.1).1⟩
    exact (mem_classifyExtensions A B _).mpr (Or.inr (Or.inl ⟨x, hxa, hxb', rfl⟩))

theorem classify_any_plus (A B : List String) (hA : ∀ x ∈ A, cleanId x)
    (hB : ∀ x ∈ B, cleanId x) :
    (classifyExtensions A B).any
        (fun e => "+".data.isPrefixOf (jsTrim (entryLine e))) =
      B.any (fun x => !A.contains x) := by
  rw [Bool.eq_iff_iff, List.any_eq_true, List.any_eq_true]
  constructor
  · rintro ⟨e, he, hpe⟩
    rcases (mem_classifyExtensions A B e).mp he with
      ⟨x, hxa, hxb, rfl⟩ | ⟨x, hxa, hxb, rfl⟩ | ⟨x, hxb, hxa, rfl⟩
    · rw [(marker_of_keep x (hA x hxa).2.1).2] at hpe
      exact absurd hpe (by simp)
    · rw [(marker_of_remove x (hA x hxa).2.1).2] at hpe
      exact absurd hpe (by simp)
    · exact ⟨x, hxb, by simpa [contains_iff_mem] using hxa⟩
  · rintro ⟨x, hxb, hxa⟩
    have hxa' : x ∉ A := by simpa [contains_iff_mem] using hxa
    refine ⟨x ++ "|add", ?_, (marker_of_add x (hB x hxb).2.1).2⟩
    exact (mem_classifyExtensions A B _).mpr (Or.inr (Or.inr ⟨x, hxb, hxa', rfl⟩))

/-! ## Helper lemmas: the tag filter and the report body -/

theorem jsEndsWith_keep (x : String) : jsEndsWith (x ++ "|keep") "|keep" = true := by
  unfold jsEndsWith
  rw [List.isSuffixOf_iff_suffix, String.data_append]
  exact List.suffix_append _ _

theorem jsEndsWith_remove (x : String) : jsEndsWith (x ++ "|remove") "|keep" = false := by
  unfold jsEndsWith
  rw [Bool.eq_false_iff, Ne, List.isSuffixOf_iff_suffix]
  intro h
  rw [← List.reverse_prefix, String.data_append, List.reverse_append] at h
  obtain ⟨t, ht⟩ := h
  rw [show ("|keep".data).reverse = 'p' :: ['e', 'e', 'k', '|'] from by decide,
    show ("|remove".data).reverse = 'e' :: ['v', 'o', 'm', 'e', 'r', '|'] from by decide] at ht
  simp only [List.cons_append, List.cons.injEq] at ht
  exact absurd ht.1 (by decide)

theorem jsEndsWith_add (x : String) : jsEndsWith (x ++ "|add") "|keep" = false := by
  unfold jsEndsWith
  rw [Bool.eq_false_iff, Ne, List.isSuffixOf_iff_suffix]
  intro h
  rw [← List.reverse_prefix, String.data_append, List.reverse_append] at h
  obtain ⟨t, ht⟩ := h
  rw [show ("|keep".data).reverse = 'p' :: ['e', 'e', 'k', '|'] from by decide,
    show ("|add".data).reverse = 'd' :: ['d', 'a', '|'] from by decide] at ht
  simp only [List.cons_append, List.cons.injEq] at ht
  exact absurd ht.1 (by decide)

theorem classify_filter_len_iff (A B : List String) :
    ((classifyExtensions A B).filter (fun e => !jsEndsWith e "|keep")).length = 0 ↔
      ((∀ x ∈ A, x ∈ B) ∧ (∀ x ∈ B, x ∈ A)) := by
  rw [List.length_eq_zero, List.filter_eq_nil_iff]
  constructor
  · intro h
    constructor
    · intro x hx
      by_contra hxb
      have hmem : (x ++ "|remove") ∈ classifyExtensions A B :=
        (mem_classifyExtensions A B _).mpr (Or.inr (Or.inl ⟨x, hx, hxb, rfl⟩))
      have hcon := h _ hmem
      rw [jsEndsWith_remove] at hcon
      simp at hcon
    · intro x hx
      by_contra hxa
      have hmem : (x ++ "|add") ∈ classifyExtensions A B :=
        (mem_classifyExtensions A B _).mpr (Or.inr (Or.inr ⟨x, hx, hxa, rfl⟩))
      have hcon := h _ hmem
      rw [jsEndsWith_add] at hcon
      simp at hcon
  · rintro ⟨hab, hba⟩ e he
    rcases (mem_classifyExtensions A B e).mp he with
      ⟨x, _, _, rfl⟩ | ⟨x, hxa, hxb, rfl⟩ | ⟨x, hxb, hxa, rfl⟩
    · rw [jsEndsWith_keep]
      simp
    · exact absurd (hab x hxa) hxb
    · exact absurd (hba x hxb) hxa

theorem commitHeader_append_ne_empty (s : String) : commitHeader ++ s ≠ "" := by
  intro h
  have hdata := congrArg String.data h
  rw [String.data_append] at hdata
  rcases List.append_eq_nil.mp hdata with ⟨h1, _⟩
  exact absurd h1 (by decide)

theorem getCommitMessage_of_changes (A B : List String)
    (h : ¬((classifyExtensions A B).filter (fun e => !jsEndsWith e "|keep")).length = 0) :
    getCommitMessageByExtensionListChanges A B =
      commitHeader ++ joinStrings ((sortStrings (classifyExtensions A B)).map renderEntry) := by
  unfold getCommitMessageByExtensionListChanges
  rw [if_neg h]

theorem getCommitMessage_of_no_changes (A B : List String)
    (h : ((classifyExtensions A B).filter (fun e => !jsEndsWith e "|keep")).length = 0) :
    getCommitMessageByExtensionListChanges A B = "" := by
  unfold getCommitMessageByExtensionListChanges
  rw [if_pos h]

theorem message_lines (A B : List String) (hA : ∀ x ∈ A, cleanId x)
    (hB : ∀ x ∈ B, cleanId x) :
    splitOnChar '\n' ((removeANSI (commitHeader ++
        joinStrings ((sortStrings (classifyExtensions A B)).map renderEntry))).data) =
      "feat(extension): Updates to v{{version}}".data :: [] ::
        "New extension list:".data ::
          (sortStrings (classifyExtensions A B)).map entryLine ++ [[]] := by
  have hs : ∀ e ∈ sortStrings (classifyExtensions A B), taggedEntry e := by
    intro e he
    exact classify_tagged A B hA hB e ((sortStrings_perm _).mem_iff.mp he)
  have h1 : (removeANSI (commitHeader ++
      joinStrings ((sortStrings (classifyExtensions A B)).map renderEntry))).data =
      commitHeader.data ++ (joinStrings ((sortStrings (classifyExtensions A B)).map
        (fun e => (⟨entryLine e ++ ['\n']⟩ : String)))).data := by
    have hr : ∀ t : String, (removeANSI t).data = removeANSIAux t.data := fun _ => rfl
    rw [hr, String.data_append, removeANSIAux_append_of_no_esc _ _ (by decide),
      removeANSIAux_joinStrings _ hs]
  rw [h1, splitOnChar_commitHeader,
    splitOnChar_joined_lines _ (fun e he => by
      obtain ⟨x, hx, hshape⟩ := hs e he
      exact entryLine_no_newline e x hx hshape)]
  simp

theorem any_map_general {α β : Type} (l : List α) (f : α → β) (p : β → Bool) :
    (l.map f).any p = l.any (fun a => p (f a)) := by
  induction l with
  | nil => rfl
  | cons a t ih => simp [ih]

theorem any_eq_false_iff (l : List String) (p : String → Bool) :
    l.any p = false ↔ ∀ x ∈ l, p x = false := by
  rw [← Bool.not_eq_true, List.any_eq_true]
  constructor
  · intro hn x hx
    cases hpx : p x
    · rfl
    · exact absurd ⟨x, hx, hpx⟩ hn
  · rintro h ⟨x, hx, hpx⟩
    rw [h x hx] at hpx
    cases hpx

theorem bumpVersionType_diff (A B : List String) (hA : ∀ x ∈ A, cleanId x)
    (hB : ∀ x ∈ B, cleanId x) :
    bumpVersionType (getCommitMessageByExtensionListChanges A B) =
      if A.any (fun x => !B.contains x) then "major"
      else if B.any (fun x => !A.contains x) then "minor"
      else "patch" := by
  by_cases hemp : ((classifyExtensions A B).filter (fun e => !jsEndsWith e "|keep")).length = 0
  · obtain ⟨hab, hba⟩ := (classify_filter_len_iff A B).mp hemp
    rw [getCommitMessage_of_no_changes A B hemp]
    have hAany : A.any (fun x => !B.contains x) = false :=
      (any_eq_false_iff _ _).mpr (fun x hx => by
        simp [contains_iff_mem, hab x hx])
    have hBany : B.any (fun x => !A.contains x) = false :=
      (any_eq_false_iff _ _).mpr (fun x hx => by
        simp [contains_iff_mem, hba x hx])
    have h0 : bumpVersionType "" = "patch" := by
      unfold bumpVersionType
      have hdata : (removeANSI "").data = [] := removeANSIAux_nil
      rw [hdata]
      simp [splitOnChar, jsTrim_nil, List.isPrefixOf]
    rw [h0, hAany, hBany]
    simp
  · rw [getCommitMessage_of_changes A B hemp]
    unfold bumpVersionType
    rw [message_lines A B hA hB]
    have hminus : ("feat(extension): Updates to v{{version}}".data :: [] ::
        "New extension list:".data ::
          (sortStrings (classifyExtensions A B)).map entryLine ++ [[]]).any
          (fun l => "-".data.isPrefixOf (jsTrim l)) =
        A.any (fun x => !B.contains x) := by
      simp only [List.any_cons, List.any_append]
      rw [show ("-".data.isPrefixOf
          (jsTrim "feat(extension): Updates to v{{version}}".data)) = false from by decide,
        show ("-".data.isPrefixOf (jsTrim ([] : List Char))) = false from by decide,
        show ("-".data.isPrefixOf (jsTrim "New extension list:".data)) = false from by decide,
        any_map_general, perm_any_eq _ _ (sortStrings_perm _) _,
        classify_any_minus A B hA hB]
      simp
    have hplus : ("feat(extension): Updates to v{{version}}".data :: [] ::
        "New extension list:".data ::
          (sortStrings (classifyExtensions A B)).map entryLine ++ [[]]).any
          (fun l => "+".data.isPrefixOf (jsTrim l)) =
        B.any (fun x => !A.contains x) := by
      simp only [List.any_cons, List.any_append]
      rw [show ("+".data.isPrefixOf
          (jsTrim "feat(extension): Updates to v{{version}}".data)) = false from by decide,
        show ("+".data.isPrefixOf (jsTrim ([] : List Char))) = false from by decide,
        show ("+".data.isPrefixOf (jsTrim "New extension list:".data)) = false from by decide,
        any_map_general, perm_any_eq _ _ (sortStrings_perm _) _,
        classify_any_plus A B hA hB]
      simp
    simp only [hminus, hplus]

theorem increaseVersion_parsed (v : String) (a b c : List Char) (M m p : Nat)
    (hv : splitOnChar '.' v.data = [a, b, c])
    (ha : jsToNumber a = some M) (hb : jsToNumber b = some m)
    (hc : jsToNumber c = some p) :
    increaseVersion v "major" = toString (M + 1) ++ ".0.0" ∧
    increaseVersion v "minor" = toString M ++ "." ++ toString (m + 1) ++ ".0" ∧
    increaseVersion v "patch" =
      toString M ++ "." ++ toString m ++ "." ++ toString (p + 1) := by
  unfold increaseVersion
  rw [hv]
  refine ⟨?_, ?_, ?_⟩
  · rw [if_pos rfl]
    simp [ha, jsNumberToString]
  · rw [if_neg (by decide), if_pos rfl]
    simp [ha, hb, jsNumberToString]
  · rw [if_neg (by decide), if_neg (by decide), if_pos rfl]
    simp [ha, hb, hc, jsNumberToString]

/-! ## Claim C2: the version bump policy on diff reports -/

/-- C2: for every change report the diff produces from clean identifier
lists, `bumpVersion` bumps the major component (resetting minor and patch)
when the report has a removed line, i.e. when some current extension is not
recommended; otherwise bumps minor (resetting patch) when the report has an
added line, i.e. when some recommended extension is new; otherwise bumps only
the patch component. -/
theorem bumpVersion_policy (A B : List String) (v : String) (a b c : List Char)
    (M m p : Nat) (hA : ∀ x ∈ A, cleanId x) (hB : ∀ x ∈ B, cleanId x)
    (hv : splitOnChar '.' v.data = [a, b, c])
    (ha : jsToNumber a = some M) (hb : jsToNumber b = some m)
    (hc : jsToNumber c = some p) :
    bumpVersion v (getCommitMessageByExtensionListChanges A B) =
      if A.any (fun x => !B.contains x) then toString (M + 1) ++ ".0.0"
      else if B.any (fun x => !A.contains x) then
        toString M ++ "." ++ toString (m + 1) ++ ".0"
      else toString M ++ "." ++ toString m ++ "." ++ toString (p + 1) := by
  unfold bumpVersion
  rw [bumpVersionType_diff A B hA hB]
  obtain ⟨h1, h2, h3⟩ := increaseVersion_parsed v a b c M m p hv ha hb hc
  by_cases hrem : A.any (fun x => !B.contains x) = true
  · rw [if_pos hrem, if_pos hrem, h1]
  · rw [if_neg hrem, if_neg hrem]
    by_cases hadd : B.any (fun x => !A.contains x) = true
    · rw [if_pos hadd, if_pos hadd, h2]
    · rw [if_neg hadd, if_neg hadd, h3]

theorem bumpVersion_policy_witness :
    ((∀ x ∈ ["old.ext"], cleanId x) ∧ (∀ x ∈ ["new.ext"], cleanId x) ∧
      splitOnChar '.' ("1.2.3" : String).data = [['1'], ['2'], ['3']] ∧
      jsToNumber ['1'] = some 1 ∧ jsToNumber ['2'] = some 2 ∧
      jsToNumber ['3'] = some 3) ∧
    bumpVersion "1.2.3" (getCommitMessageByExtensionListChanges ["old.ext"] ["new.ext"]) =
      if (["old.ext"] : List String).any (fun x => !(["new.ext"] : List String).contains x)
      then toString (1 + 1) ++ ".0.0"
      else if (["new.ext"] : List String).any
          (fun x => !(["old.ext"] : List String).contains x) then
        toString 1 ++ "." ++ toString (2 + 1) ++ ".0"
      else toString 1 ++ "." ++ toString 2 ++ "." ++ toString (3 + 1) :=
  ⟨⟨by decide, by decide, by decide, by decide, by decide, by decide⟩,
    bumpVersion_policy ["old.ext"] ["new.ext"] "1.2.3" ['1'] ['2'] ['3'] 1 2 3
      (by decide) (by decide) (by decide) (by decide) (by decide) (by decide)⟩

/-! ## Claim C4: the shape of the diff report -/

/-- C4: the diff of a list against itself is the empty report; in general the
report is empty exactly when no entry is added or removed (all kept), and a
non-empty report is the templated header followed by the sorted tagged entries
rendered one marker-prefixed line each (neutral bullet for kept, minus for
removed, plus for added), as exhibited by its line decomposition after
stripping the colors. -/
theorem getCommitMessageByExtensionListChanges_spec (A B : List String)
    (hA : ∀ x ∈ A, cleanId x) (hB : ∀ x ∈ B, cleanId x) :
    (getCommitMessageByExtensionListChanges A A = "") ∧
    (getCommitMessageByExtensionListChanges A B = "" ↔
      ((∀ x ∈ A, x ∈ B) ∧ (∀ x ∈ B, x ∈ A))) ∧
    (getCommitMessageByExtensionListChanges A B ≠ "" →
      ∃ ents, List.Sorted (· ≤ ·) ents ∧ ents.Perm (classifyExtensions A B) ∧
        splitOnChar '\n'
            ((removeANSI (getCommitMessageByExtensionListChanges A B)).data) =
          "feat(extension): Updates to v{{version}}".data :: [] ::
            "New extension list:".data :: (ents.map entryLine ++ [[]])) := by
  refine ⟨?_, ?_, ?_⟩
  · exact getCommitMessage_of_no_changes A A
      ((classify_filter_len_iff A A).mpr ⟨fun x h => h, fun x h => h⟩)
  · constructor
    · intro h
      by_cases hemp :
          ((classifyExtensions A B).filter (fun e => !jsEndsWith e "|keep")).length = 0
      · exact (classify_filter_len_iff A B).mp hemp
      · rw [getCommitMessage_of_changes A B hemp] at h
        exact absurd h (commitHeader_append_ne_empty _)
    · intro hsub
      exact getCommitMessage_of_no_changes A B ((classify_filter_len_iff A B).mpr hsub)
  · intro hne
    by_cases hemp :
        ((classifyExtensions A B).filter (fun e => !jsEndsWith e "|keep")).length = 0
    · exact absurd (getCommitMessage_of_no_changes A B hemp) hne
    · refine ⟨sortStrings (classifyExtensions A B), sortStrings_sorted _,
        sortStrings_perm _, ?_⟩
      rw [getCommitMessage_of_changes A B hemp, message_lines A B hA hB]
      simp

theorem getCommitMessageByExtensionListChanges_spec_witness :
    ((∀ x ∈ ["a.x"], cleanId x) ∧ (∀ x ∈ ([] : List String), cleanId x)) ∧
    ((getCommitMessageByExtensionListChanges ["a.x"] ["a.x"] = "") ∧
      (getCommitMessageByExtensionListChanges ["a.x"] [] = "" ↔
        ((∀ x ∈ ["a.x"], x ∈ ([] : List String)) ∧
          (∀ x ∈ ([] : List String), x ∈ ["a.x"]))) ∧
      (getCommitMessageByExtensionListChanges ["a.x"] [] ≠ "" →
        ∃ ents, List.Sorted (· ≤ ·) ents ∧
          ents.Perm (classifyExtensions ["a.x"] []) ∧
          splitOnChar '\n'
              ((removeANSI (getCommitMessageByExtensionListChanges ["a.x"] [])).data) =
            "feat(extension): Updates to v{{version}}".data :: [] ::
              "New extension list:".data :: (ents.map entryLine ++ [[]]))) :=
  ⟨⟨by decide, by decide⟩,
    getCommitMessageByExtensionListChanges_spec ["a.x"] [] (by decide) (by decide)⟩

/-! ## Claim C8: the manifest update touches only version and extensionPack -/

theorem lookup_map_update_self (o : JsonObj) (k : String) (v : JValue)
    (h : (o.lookup k).isSome = true) :
    (o.map (fun kv => if kv.1 = k then (k, v) else kv)).lookup k = some v := by
  induction o with
  | nil => simp [List.lookup] at h
  | cons kv t ih =>
    obtain ⟨ka, va⟩ := kv
    by_cases hk : ka = k
    · subst hk
      rw [List.map_cons, if_pos rfl, List.lookup_cons]
      simp
    · rw [List.map_cons, if_neg (by simpa using hk), List.lookup_cons]
      rw [List.lookup_cons] at h
      have hkb : (k == ka) = false := by simpa using Ne.symm hk
      simp only [hkb] at h ⊢
      exact ih h

theorem lookup_map_update_ne (o : JsonObj) (k k' : String) (v : JValue)
    (hne : k' ≠ k) :
    (o.map (fun kv => if kv.1 = k then (k, v) else kv)).lookup k' = o.lookup k' := by
  induction o with
  | nil => rfl
  | cons kv t ih =>
    obtain ⟨ka, va⟩ := kv
    by_cases hk : ka = k
    · subst hk
      rw [List.map_cons, if_pos rfl, List.lookup_cons, List.lookup_cons]
      have hb : (k' == ka) = false := by simpa using hne
      simp only [hb]
      exact ih
    · rw [List.map_cons, if_neg (by simpa using hk), List.lookup_cons, List.lookup_cons]
      cases hkb : (k' == ka)
      · simp only [hkb]
        exact ih
      · simp only [hkb]

theorem lookup_append_single_self (o : JsonObj) (k : String) (v : JValue)
    (h : o.lookup k = none) :
    (o ++ [(k, v)]).lookup k = some v := by
  induction o with
  | nil => simp [List.lookup]
  | cons kv t ih =>
    obtain ⟨ka, va⟩ := kv
    rw [List.cons_append, List.lookup_cons]
    rw [List.lookup_cons] at h
    cases hkb : (k == ka)
    · simp only [hkb] at h ⊢
      exact ih h
    · simp only [hkb] at h
      cases h

theorem lookup_append_single_ne (o : JsonObj) (k k' : String) (v : JValue)
    (hne : k' ≠ k) :
    (o ++ [(k, v)]).lookup k' = o.lookup k' := by
  have hb : (k' == k) = false := by simpa using hne
  induction o with
  | nil => simp [List.lookup, hb]
  | cons kv t ih =>
    obtain ⟨ka, va⟩ := kv
    rw [List.cons_append, List.lookup_cons, List.lookup_cons]
    cases hkb : (k' == ka)
    · simp only [hkb]
      exact ih
    · simp only [hkb]

theorem lookup_setKey_self (o : JsonObj) (k : String) (v : JValue) :
    (setKey o k v).lookup k = some v := by
  unfold setKey
  by_cases h : (o.lookup k).isSome
  · rw [if_pos h]
    exact lookup_map_update_self o k v h
  · rw [if_neg h]
    exact lookup_append_single_self o k v (by
      cases hl : o.lookup k
      · rfl
      · rw [hl] at h
        simp at h)

theorem lookup_setKey_ne (o : JsonObj) (k k' : String) (v : JValue) (hne : k' ≠ k) :
    (setKey o k v).lookup k' = o.lookup k' := by
  unfold setKey
  by_cases h : (o.lookup k).isSome
  · rw [if_pos h]
    exact lookup_map_update_ne o k k' v hne
  · rw [if_neg h]
    exact lookup_append_single_ne o k k' v hne

/-- C8: `updatePackageJson` sets the `version` and `extensionPack` fields and
leaves the value of every other key of the parsed manifest unchanged. -/
theorem updatePackageJson_frame (pj : JsonObj) (ver : String) (exts : List String) :
    ((updatePackageJson pj ver exts).lookup "version" = some (JValue.str ver)) ∧
    ((updatePackageJson pj ver exts).lookup "extensionPack" =
      some (JValue.strList exts)) ∧
    (∀ k, k ≠ "version" → k ≠ "extensionPack" →
      (updatePackageJson pj ver exts).lookup k = pj.lookup k) := by
  unfold updatePackageJson
  refine ⟨?_, ?_, ?_⟩
  · rw [lookup_setKey_ne _ _ _ _ (by decide), lookup_setKey_self]
  · rw [lookup_setKey_self]
  · intro k h1 h2
    rw [lookup_setKey_ne _ _ _ _ h2, lookup_setKey_ne _ _ _ _ h1]

theorem updatePackageJson_frame_witness :
    (("name" : String) ≠ "version" ∧ ("name" : String) ≠ "extensionPack") ∧
    (updatePackageJson [("name", JValue.str "dev-essentials-pack")] "3.1.0"
        ["a.b"]).lookup "name" =
      [("name", JValue.str "dev-essentials-pack")].lookup "name" :=
  ⟨⟨by decide, by decide⟩,
    (updatePackageJson_frame [("name", JValue.str "dev-essentials-pack")] "3.1.0"
        ["a.b"]).2.2 "name" (by decide) (by decide)⟩

/-! ## Helper lemmas: non-blank messages -/

theorem jsTrimString_ne_empty_of_head (s : String) (c : Char)
    (hdata : s.data.head? = some c) (hc : c.isWhitespace = false) :
    jsTrimString s ≠ "" := by
  intro h
  have hd := congrArg String.data h
  rw [show (jsTrimString s).data = jsTrim s.data from rfl] at hd
  cases hsd : s.data with
  | nil => rw [hsd] at hdata; cases hdata
  | cons a r =>
    rw [hsd] at hdata hd
    have ha : a = c := by simpa using hdata
    subst ha
    exact jsTrim_ne_nil a r hc hd

theorem data_head?_append (s t : String) (c : Char) (h : s.data.head? = some c) :
    (s ++ t).data.head? = some c := by
  rw [String.data_append]
  cases hd : s.data with
  | nil => rw [hd] at h; cases h
  | cons a r =>
    rw [hd] at h
    simpa using h

theorem escapeQuotes_head? (s : String) (c : Char) (hq : c ≠ '"')
    (h : s.data.head? = some c) : (escapeQuotes s).data.head? = some c := by
  cases hd : s.data with
  | nil => rw [hd] at h; cases h
  | cons a r =>
    rw [hd] at h
    have ha : a = c := by simpa using h
    subst ha
    show (s.data.flatMap _).head? = some a
    rw [hd, List.flatMap_cons, if_neg hq]
    rfl

theorem filter_length_pos_iff (l : List String) (p : String → Bool) :
    0 < (l.filter p).length ↔ ∃ x ∈ l, p x = true := by
  rw [List.length_pos]
  constructor
  · intro h
    cases hf : l.filter p with
    | nil => exact absurd hf h
    | cons a t =>
      have ha : a ∈ l.filter p := by rw [hf]; exact List.mem_cons_self a t
      rw [List.mem_filter] at ha
      exact ⟨a, ha.1, ha.2⟩
  · rintro ⟨x, hx, hpx⟩ hf
    rw [List.filter_eq_nil_iff] at hf
    exact hf x hx hpx

theorem getCommitMessageByStagedFiles_trim_ne (staged : List String) (hst : staged ≠ [])
    (title : String) (c : Char) (hhead : title.data.head? = some c)
    (hc : c.isWhitespace = false) (hq : c ≠ '"') :
    jsTrimString (getCommitMessageByStagedFiles staged title) ≠ "" := by
  apply jsTrimString_ne_empty_of_head _ c _ hc
  unfold getCommitMessageByStagedFiles
  rw [if_pos (List.length_pos.mpr hst)]
  apply escapeQuotes_head? _ c hq
  exact data_head?_append _ _ _ (data_head?_append _ _ _ (data_head?_append _ _ _ hhead))

/-! ## Claim C7: declining the prompt aborts cleanly -/

/-- C7: when the user declines the confirmation prompt (which is reached
whenever there is something to commit), both commit helpers restore the staged
area as their last git command, terminate the process with exit status 0, and
never issue a commit command. -/
theorem decline_aborts_with_clean_stage (projectFiles stagedFiles : List String)
    (msg : String) (hstaged : stagedFiles ≠ []) (hmsg : jsTrimString msg ≠ "") :
    (commitProjectFiles projectFiles stagedFiles false =
      (RunOutcome.exited 0,
        [GitCmd.add projectFiles, GitCmd.diffNameOnlyCached, GitCmd.restoreStaged])) ∧
    (commitExtensionFiles msg false =
      (RunOutcome.exited 0, [GitCmd.add ["."], GitCmd.restoreStaged])) ∧
    (∀ m, GitCmd.commit m ∉ [GitCmd.add projectFiles, GitCmd.diffNameOnlyCached,
      GitCmd.restoreStaged]) ∧
    (∀ m, GitCmd.commit m ∉ [GitCmd.add ["."], GitCmd.restoreStaged]) := by
  refine ⟨?_, ?_, ?_, ?_⟩
  · have hne : jsTrimString
        (getCommitMessageByStagedFiles stagedFiles "chore: Updated project files") ≠ "" :=
      getCommitMessageByStagedFiles_trim_ne stagedFiles hstaged _ 'c' rfl
        (by decide) (by decide)
    unfold commitProjectFiles
    rw [if_neg hne, if_pos (by decide)]
  · unfold commitExtensionFiles
    rw [if_neg hmsg, if_pos (by decide)]
  · intro m
    simp
  · intro m
    simp

theorem decline_aborts_with_clean_stage_witness :
    ((["file.txt"] : List String) ≠ [] ∧ jsTrimString "feat: update" ≠ "") ∧
    ((commitProjectFiles ["scripts/x.js"] ["file.txt"] false =
      (RunOutcome.exited 0,
        [GitCmd.add ["scripts/x.js"], GitCmd.diffNameOnlyCached,
          GitCmd.restoreStaged])) ∧
    (commitExtensionFiles "feat: update" false =
      (RunOutcome.exited 0, [GitCmd.add ["."], GitCmd.restoreStaged])) ∧
    (∀ m, GitCmd.commit m ∉ [GitCmd.add ["scripts/x.js"], GitCmd.diffNameOnlyCached,
      GitCmd.restoreStaged]) ∧
    (∀ m, GitCmd.commit m ∉ [GitCmd.add ["."], GitCmd.restoreStaged])) :=
  ⟨⟨by decide, by decide⟩,
    decline_aborts_with_clean_stage ["scripts/x.js"] ["file.txt"] "feat: update"
      (by decide) (by decide)⟩

/-! ## Claim C5: when the manifest is written -/

theorem sortStrings_eq_iff (l₁ l₂ : List String) (h₁ : l₁.Nodup) (h₂ : l₂.Nodup) :
    sortStrings l₁ = sortStrings l₂ ↔ ∀ x, x ∈ l₁ ↔ x ∈ l₂ := by
  constructor
  · intro h x
    rw [← (sortStrings_perm l₁).mem_iff, ← (sortStrings_perm l₂).mem_iff, h]
  · intro h
    exact List.eq_of_perm_of_sorted
      ((sortStrings_perm l₁).trans (((List.perm_ext_iff_of_nodup h₁ h₂).mpr h).trans
        (sortStrings_perm l₂).symm))
      (sortStrings_sorted _) (sortStrings_sorted _)

/-- C5 (counterexample): with equal (empty) extension lists and the non-empty
but whitespace-only message " ", `updateExtensionPack` skips the write even
though the claim's condition — list changed or message non-empty — holds. -/
theorem updateExtensionPack_claim_counterexample :
    updateExtensionPack [] [] " " [] "1.0.0" = none ∧
    ((∀ x, x ∈ ([] : List String) ↔ x ∈ ([] : List String)) ∧ (" " : String) ≠ "") := by
  constructor
  · have h1 : hasChangesOnExtensionList [] [] = false := by
      unfold hasChangesOnExtensionList
      simp only [show sortStrings ([] : List String) = [] from List.mergeSort_nil]
      simp
    unfold updateExtensionPack
    rw [if_pos ⟨by rw [h1]; rfl, by decide⟩]
  · exact ⟨fun x => Iff.rfl, by decide⟩

/-- C5 (amended): for duplicate-free lists, `updateExtensionPack` writes the
updated manifest (version plus merged extension list) if and only if the
merged list differs from the current one as a set or the commit message is
non-blank (non-empty after trimming); otherwise it performs no write. -/
theorem updateExtensionPack_write_iff (cur upd : List String) (h₁ : cur.Nodup)
    (h₂ : upd.Nodup) (msg : String) (pj : JsonObj) (ver : String) :
    ((updateExtensionPack cur upd msg pj ver).isSome = true ↔
      (¬(∀ x, x ∈ cur ↔ x ∈ upd) ∨ jsTrimString msg ≠ "")) ∧
    (∀ out, updateExtensionPack cur upd msg pj ver = some out →
      out = updatePackageJson pj ver upd) := by
  have hch : hasChangesOnExtensionList cur upd = false ↔ (∀ x, x ∈ cur ↔ x ∈ upd) := by
    unfold hasChangesOnExtensionList
    rw [decide_eq_false_iff_not, not_not]
    exact sortStrings_eq_iff cur upd h₁ h₂
  unfold updateExtensionPack
  by_cases hc : (!hasChangesOnExtensionList cur upd) = true ∧ jsTrimString msg = ""
  · refine ⟨?_, ?_⟩
    · rw [if_pos hc]
      simp only [Option.isSome_none, Bool.false_eq_true, false_iff]
      push_neg
      exact ⟨hch.mp (by simpa using hc.1), hc.2⟩
    · intro out hout
      rw [if_pos hc] at hout
      cases hout
  · refine ⟨?_, ?_⟩
    · rw [if_neg hc]
      simp only [Option.isSome_some, true_iff]
      by_cases htrim : jsTrimString msg = ""
      · left
        intro hall
        exact hc ⟨by rw [hch.mpr hall]; rfl, htrim⟩
      · right
        exact htrim
    · intro out hout
      rw [if_neg hc] at hout
      exact (Option.some.inj hout).symm

theorem updateExtensionPack_write_iff_witness :
    ((["a.b"] : List String).Nodup ∧ ([] : List String).Nodup) ∧
    (((updateExtensionPack ["a.b"] [] "" [] "2.0.0").isSome = true ↔
      (¬(∀ x, x ∈ (["a.b"] : List String) ↔ x ∈ ([] : List String)) ∨
        jsTrimString "" ≠ "")) ∧
    (∀ out, updateExtensionPack ["a.b"] [] "" [] "2.0.0" = some out →
      out = updatePackageJson [] "2.0.0" [])) :=
  ⟨⟨by decide, by decide⟩,
    updateExtensionPack_write_iff ["a.b"] [] (by decide) (by decide) "" [] "2.0.0"⟩

/-! ## Claim C6: enriching the message from the staged files -/

/-- C6 (counterexample): with a blank message and only the manifest
`package.json` among the staged files — no non-manifest extension file staged —
`addAdditionalInfoToMessage` still appends the staged-files listing. -/
theorem addAdditionalInfoToMessage_counterexample :
    (addAdditionalInfoToMessage
        [".vscode/extensions.json", "package.json", "assets/icon_128.png", "README.md"]
        ["package.json"] "").1 ≠ "" ∧
    (["package.json"] : List String).filter
      (fun f => !jsIncludes f "package.json") = [] := by
  exact ⟨by decide, by decide⟩

/-- C6 (amended): `addAdditionalInfoToMessage` always issues stage, inspect,
unstage in that order (the staging area is unstaged on normal completion
regardless of the message), and the staged-files listing is appended exactly
when either the message is non-blank and some staged file does not contain
`package.json`, or the message is blank and any file at all is staged. -/
theorem addAdditionalInfoToMessage_spec (extensionFiles stagedFiles : List String)
    (message : String) :
    ((addAdditionalInfoToMessage extensionFiles stagedFiles message).2 =
      [GitCmd.add extensionFiles, GitCmd.diffNameOnlyCached, GitCmd.restoreStaged]) ∧
    ((addAdditionalInfoToMessage extensionFiles stagedFiles message).1 ≠ message ↔
      (if jsTrimString message ≠ "" then
        ∃ f ∈ stagedFiles, jsIncludes f "package.json" = false
      else stagedFiles ≠ [])) := by
  refine ⟨rfl, ?_⟩
  have hgoal : (addAdditionalInfoToMessage extensionFiles stagedFiles message).1 =
      (if 0 < (stagedFiles.filter
          (fun f => if jsTrimString message ≠ "" then !jsIncludes f "package.json"
            else true)).length
        then (if jsTrimString message ≠ "" then message ++ "\n\n"
          else "feat(extension): Updates to v{{version}}\n\n") ++
            getCommitMessageByStagedFiles stagedFiles "Extension files updated:"
        else message) := rfl
  rw [hgoal]
  by_cases hm : jsTrimString message ≠ ""
  · simp only [if_pos hm]
    by_cases hlen :
        0 < (stagedFiles.filter (fun f => !jsIncludes f "package.json")).length
    · rw [if_pos hlen]
      apply iff_of_true
      · intro heq
        have hd := congrArg String.data heq
        rw [String.data_append, String.data_append, List.append_assoc] at hd
        have hcancel : ("\n\n" : String).data ++
            (getCommitMessageByStagedFiles stagedFiles
              "Extension files updated:").data = [] :=
          List.append_cancel_left (hd.trans (List.append_nil message.data).symm)
        cases hcancel
      · obtain ⟨f, hf, hb⟩ := (filter_length_pos_iff _ _).mp hlen
        exact ⟨f, hf, by simpa using hb⟩
    · rw [if_neg hlen]
      apply iff_of_false
      · simp
      · rintro ⟨f, hf, hb⟩
        exact hlen ((filter_length_pos_iff _ _).mpr ⟨f, hf, by simpa using hb⟩)
  · simp only [if_neg hm]
    by_cases hst : stagedFiles = []
    · subst hst
      apply iff_of_false <;> simp
    · have hft : stagedFiles.filter (fun f => true) = stagedFiles := by simp
      rw [hft, if_pos (List.length_pos.mpr hst)]
      apply iff_of_true
      · intro heq
        have hne2 : jsTrimString
            (("feat(extension): Updates to v{{version}}\n\n" : String) ++
              getCommitMessageByStagedFiles stagedFiles "Extension files updated:") ≠ "" :=
          jsTrimString_ne_empty_of_head _ 'f' (data_head?_append _ _ _ rfl) (by decide)
        rw [heq] at hne2
        exact hm hne2
      · exact hst

theorem addAdditionalInfoToMessage_spec_witness :
    ((addAdditionalInfoToMessage [".vscode/extensions.json"] ["src/util.js"] "").2 =
      [GitCmd.add [".vscode/extensions.json"], GitCmd.diffNameOnlyCached,
        GitCmd.restoreStaged]) ∧
    ((addAdditionalInfoToMessage [".vscode/extensions.json"] ["src/util.js"] "").1 ≠ "" ↔
      (if jsTrimString "" ≠ "" then
        ∃ f ∈ (["src/util.js"] : List String), jsIncludes f "package.json" = false
      else (["src/util.js"] : List String) ≠ [])) :=
  addAdditionalInfoToMessage_spec [".vscode/extensions.json"] ["src/util.js"] ""
